import Mathlib

/-!
Verification of the bingo-card generation core (`src/client/src/lib/bingoUtils.ts`
and the PDF pagination logic of `src/client/src/lib/fileUtils.ts`).

Shallow embedding conventions:
* JavaScript strings handled character-by-character (`processWords`) are
  modelled as `List Char`; opaque word values (the card generator never
  inspects them beyond `toLowerCase`) are modelled as `String`.
* `Math.random()`-driven choices are modelled by an explicit random source
  `g : Nat → Nat`; the JS expression `Math.floor(Math.random() * (i + 1))`,
  which yields a value in `[0, i]`, is modelled as `g i % (i + 1)`.
* JS numbers in the unit converter are modelled as `ℚ`; `Math.round x` is
  `⌊x + 1/2⌋` (JS rounds halves toward +∞).
* `throw new Error(msg)` is modelled as `Except.error msg`.
-/

namespace Bingo

/-! ### Word processing (`processWords`) -/

/-- A character matched by the separator class of the regex `[,\n]+`. -/
def isSeparator (c : Char) : Bool :=
  c == ',' || c == '\n'

/-- `String.prototype.split` with the regex `[,\n]+`: fragments are the
maximal runs of non-separator characters, with an empty fragment produced at
the start (resp. end) when the input starts (resp. ends) with a separator
run, exactly as in JavaScript. -/
def splitRuns : List Char → List (List Char)
  | [] => [[]]
  | c :: cs =>
    let rest := splitRuns cs
    if isSeparator c then
      match cs with
      | [] => [] :: rest
      | d :: _ => if isSeparator d then rest else [] :: rest
    else
      match rest with
      | [] => [[c]]
      | f :: rs => (c :: f) :: rs

/-- `String.prototype.trim`, dropping leading and trailing whitespace. -/
def trimChars (l : List Char) : List Char :=
  ((l.dropWhile Char.isWhitespace).reverse.dropWhile Char.isWhitespace).reverse

/-- `String.prototype.toLowerCase`, character by character. -/
def lowerChars (w : List Char) : List Char :=
  w.map Char.toLower

/-- The dedup loop of `processWords`: `seen` is the set of lowercased words
already emitted (modelled as a list), and a word is kept only when its
lowercase form is fresh. -/
def dedupWords (seen : List (List Char)) : List (List Char) → List (List Char)
  | [] => []
  | w :: ws =>
    if lowerChars w ∈ seen then dedupWords seen ws
    else w :: dedupWords (lowerChars w :: seen) ws

/-- `processWords` from `bingoUtils.ts`: split on `[,\n]+`, trim each
fragment, drop empties, and deduplicate case-insensitively keeping the first
occurrence.  The `!input` guard makes the empty string return `[]` early. -/
def processWords (input : List Char) : List (List Char) :=
  if input = [] then []
  else
    dedupWords []
      (((splitRuns input).map trimChars).filter (fun w => decide (0 < w.length)))

/-- Joining a word list with commas (the re-joining step used to feed a
processed word list back into `processWords`). -/
def joinComma : List (List Char) → List Char
  | [] => []
  | [w] => w
  | w :: ws => w ++ ',' :: joinComma ws

/-! ### Card generation (`shuffleArray`, `generateSingleCard`,
`generateBingoCards`, `isWordCountSufficient`) -/

structure BingoCard where
  id : String
  words : List String
  gridSize : Nat
  deriving DecidableEq, Repr

structure CardConfig where
  gridSize : Nat
  numCards : Nat
  allowRepetition : Bool
  deriving DecidableEq, Repr

/-- One JS destructuring swap `[a[i], a[j]] = [a[j], a[i]]` (identity when an
index is out of range; in `shuffleArray` both always are in range). -/
def listSwap (l : List α) (i j : Nat) : List α :=
  match l.get? i, l.get? j with
  | some a, some b => (l.set i b).set j a
  | _, _ => l

/-- The Fisher–Yates loop of `shuffleArray`: for `i` from `len - 1` down to
`1`, pick `j = Math.floor(Math.random() * (i + 1))` — modelled as
`g i % (i + 1)` — and swap positions `i` and `j`. -/
def fisherYatesAux (g : Nat → Nat) : Nat → List α → List α
  | 0, l => l
  | i + 1, l => fisherYatesAux g i (listSwap l (i + 1) (g (i + 1) % (i + 2)))

/-- `shuffleArray` from `bingoUtils.ts` (the copy `[...array]` is implicit in
the purely functional embedding). -/
def shuffleArray (g : Nat → Nat) (l : List α) : List α :=
  fisherYatesAux g (l.length - 1) l

/-- JS `toLowerCase` on an opaque word value. -/
def lowerStr (s : String) : String :=
  String.mk (s.data.map Char.toLower)

/-- `generateSingleCard` from `bingoUtils.ts`. -/
def generateSingleCard (g : Nat → Nat) (availableWords : List String)
    (gridSize : Nat) (cardId : String) : Except String BingoCard :=
  let cellsNeeded := gridSize * gridSize
  if availableWords.length < cellsNeeded then
    Except.error ("Not enough unique words. Need " ++ toString cellsNeeded ++
      ", have " ++ toString availableWords.length)
  else
    let shuffled := shuffleArray g availableWords
    let selectedWords := shuffled.take cellsNeeded
    Except.ok { id := cardId, words := selectedWords, gridSize := gridSize }

/-- The generation loop of `generateBingoCards`; card `i` (0-based) draws its
randomness from `g i` and is named `card-(i+1)`.  The branch on
`config.allowRepetition` is kept exactly as in the source, where both arms
call `generateSingleCard` identically. -/
def generateCardsLoop (g : Nat → Nat → Nat) (words : List String)
    (config : CardConfig) : Nat → Except String (List BingoCard)
  | 0 => Except.ok []
  | k + 1 =>
    let i := config.numCards - (k + 1)
    let cardId := "card-" ++ toString (i + 1)
    let next :=
      if config.allowRepetition then
        generateSingleCard (g i) words config.gridSize cardId
      else
        generateSingleCard (g i) words config.gridSize cardId
    match next with
    | Except.error e => Except.error e
    | Except.ok card =>
      match generateCardsLoop g words config k with
      | Except.error e => Except.error e
      | Except.ok rest => Except.ok (card :: rest)

/-- `generateBingoCards` from `bingoUtils.ts`: up-front pool-size check, then
`config.numCards` independent single-card generations. -/
def generateBingoCards (g : Nat → Nat → Nat) (words : List String)
    (config : CardConfig) : Except String (List BingoCard) :=
  let cellsPerCard := config.gridSize * config.gridSize
  if words.length < cellsPerCard then
    Except.error ("Not enough unique words. Need at least " ++
      toString cellsPerCard ++ ", have " ++ toString words.length)
  else
    generateCardsLoop g words config config.numCards

/-- `isWordCountSufficient` from `bingoUtils.ts`; note `numCards` is unused. -/
def isWordCountSufficient (wordCount : Nat) (gridSize : Nat)
    (numCards : Nat) : Bool :=
  decide (wordCount ≥ gridSize * gridSize)

/-! ### Unit conversion (`getSizePresetDimensions`, `convertSize`) -/

inductive SizeUnit
  | px
  | mm
  deriving DecidableEq, Repr

inductive SizePreset
  | A4
  | Letter
  | Custom
  deriving DecidableEq, Repr

/-- JavaScript `Math.round`: halves round toward positive infinity. -/
def jsRound (q : ℚ) : ℤ :=
  ⌊q + 1 / 2⌋

/-- `getSizePresetDimensions` from `bingoUtils.ts`: A4 and Letter are stored
in millimeters and converted (rounded) to pixels at 96 DPI on demand; the
fallback branch returns 600 × 800 regardless of the requested unit. -/
def getSizePresetDimensions (preset : SizePreset) (unit : SizeUnit) :
    ℚ × ℚ :=
  let dpi : ℚ := 96
  let mmToPx : ℚ := dpi / 25.4
  match preset with
  | SizePreset.A4 =>
    match unit with
    | SizeUnit.mm => (210, 297)
    | SizeUnit.px => ((jsRound (210 * mmToPx) : ℤ), (jsRound (297 * mmToPx) : ℤ))
  | SizePreset.Letter =>
    match unit with
    | SizeUnit.mm => (216, 279)
    | SizeUnit.px => ((jsRound (216 * mmToPx) : ℤ), (jsRound (279 * mmToPx) : ℤ))
  | SizePreset.Custom => (600, 800)

/-- `convertSize` from `bingoUtils.ts`. -/
def convertSize (value : ℚ) (fromUnit toUnit : SizeUnit) : ℚ :=
  if fromUnit = toUnit then value
  else
    let dpi : ℚ := 96
    let mmToPx : ℚ := dpi / 25.4
    match fromUnit, toUnit with
    | SizeUnit.mm, SizeUnit.px => (jsRound (value * mmToPx) : ℤ)
    | SizeUnit.px, SizeUnit.mm => (jsRound (value / mmToPx) : ℤ)
    | _, _ => value

/-! ### PDF export pagination (`exportCardsToPDF` in `fileUtils.ts`)

The rasterization of a card (`html2canvas`) is external; a rendered card is
modelled by its canvas dimensions.  A jsPDF document is modelled by the list
of image placements (0-based page index plus position and size in mm) and by
its page count; the document starts with one page and `addPage` bumps the
current page index. -/

structure Canvas where
  width : ℚ
  height : ℚ
  deriving DecidableEq, Repr

structure Placement where
  page : Nat
  x : ℚ
  y : ℚ
  width : ℚ
  height : ℚ
  deriving DecidableEq, Repr

inductive PdfLayout
  | onePerPage
  | multiplePerPage
  deriving DecidableEq, Repr

/-- A4 portrait page width in mm (`pdf.internal.pageSize.getWidth()`). -/
def pageWidth : ℚ := 210

/-- A4 portrait page height in mm (`pdf.internal.pageSize.getHeight()`). -/
def pageHeight : ℚ := 297

/-- The per-card loop of `exportCardsToPDF`: `i` is the index of the next
card, `curPage` the 0-based index of the current pdf page.  Returns the
placements of the remaining cards and the final current page index. -/
def exportLoop (layout : PdfLayout) :
    List Canvas → Nat → Nat → List Placement × Nat
  | [], _, curPage => ([], curPage)
  | c :: rest, i, curPage =>
    match layout with
    | PdfLayout.onePerPage =>
      let page := if 0 < i then curPage + 1 else curPage
      let margin : ℚ := 10
      let availWidth := pageWidth - margin * 2
      let imgWidth := availWidth
      let imgHeight := c.height / c.width * imgWidth
      let yPos := (pageHeight - imgHeight) / 2
      let r := exportLoop layout rest (i + 1) page
      ({ page := page, x := margin, y := yPos,
         width := imgWidth, height := imgHeight } :: r.1, r.2)
    | PdfLayout.multiplePerPage =>
      let cardIndex := i % 4
      let page := if cardIndex = 0 ∧ 0 < i then curPage + 1 else curPage
      let cardWidth := (pageWidth - 20) / 2
      let cardHeight := (pageHeight - 20) / 2
      let col := cardIndex % 2
      let row := cardIndex / 2
      let xPos := 10 + (col : ℚ) * (cardWidth + 5)
      let yPos := 10 + (row : ℚ) * (cardHeight + 5)
      let r := exportLoop layout rest (i + 1) page
      ({ page := page, x := xPos, y := yPos,
         width := cardWidth, height := cardHeight } :: r.1, r.2)

/-- `exportCardsToPDF`: placements of all cards, and the page count of the
produced document (the document starts with one page, so the count is the
final 0-based page index plus one). -/
def exportCardsToPDF (cardElements : List Canvas) (layout : PdfLayout) :
    List Placement × Nat :=
  let r := exportLoop layout cardElements 0 0
  (r.1, r.2 + 1)


/-- Claim C3: `isWordCountSufficient n g k` is true iff `n >= g * g`, and the
result does not depend on the number of cards `k`. -/
theorem isWordCountSufficient_spec (n g k : Nat) :
    (isWordCountSufficient n g k = true ↔ g * g ≤ n) ∧
    (∀ k2 : Nat, isWordCountSufficient n g k = isWordCountSufficient n g k2) := by
  constructor
  · simp [isWordCountSufficient]
  · intro k2
    rfl

/-- Claim C5: `processWords` splits on runs of commas and newlines, trims,
drops empties and deduplicates case-insensitively keeping the first casing,
so that `"Apple, apple, Banana\nCherry"` becomes `["Apple", "Banana", "Cherry"]`
(the second `"apple"` is dropped). -/
theorem processWords_scenario :
    processWords ("Apple, apple, Banana\nCherry".data) =
      ["Apple".data, "Banana".data, "Cherry".data] := by
  decide

/-- Claim C8: the A4 preset is 210 x 297 in millimeters and rounds to
794 x 1123 pixels at 96 DPI. -/
theorem getSizePresetDimensions_A4 :
    getSizePresetDimensions SizePreset.A4 SizeUnit.mm = (210, 297) ∧
    getSizePresetDimensions SizePreset.A4 SizeUnit.px = (794, 1123) := by
  constructor
  · rfl
  · show (((jsRound (210 * (96 / 25.4)) : ℤ), (jsRound (297 * (96 / 25.4)) : ℤ)) : ℚ × ℚ) = ((794 : ℚ), (1123 : ℚ))
    unfold jsRound
    norm_num [Int.floor_eq_iff, Prod.ext_iff]

/-- Claim C10: the Custom preset returns 600 x 800 for both units; no unit
conversion is applied. -/
theorem getSizePresetDimensions_Custom (u : SizeUnit) :
    getSizePresetDimensions SizePreset.Custom u = (600, 800) := by
  cases u <;> rfl

/-- Claim C2: when the pool is smaller than `gridSize * gridSize`, both
`generateSingleCard` and `generateBingoCards` fail with the insufficient-words
error reporting the exact shortfall, for every configuration with that grid
size (in particular for every `numCards`, so the batch check happens before
any card is generated) and no card is returned. -/
theorem insufficientWords_error (g : Nat → Nat) (g2 : Nat → Nat → Nat)
    (P : List String) (gs : Nat) (cardId : String)
    (h : P.length < gs * gs) :
    generateSingleCard g P gs cardId =
      Except.error ("Not enough unique words. Need " ++ toString (gs * gs) ++
        ", have " ++ toString P.length) ∧
    ∀ config : CardConfig, config.gridSize = gs →
      generateBingoCards g2 P config =
        Except.error ("Not enough unique words. Need at least " ++
          toString (gs * gs) ++ ", have " ++ toString P.length) := by
  constructor
  · unfold generateSingleCard
    rw [if_pos h]
  · intro config hc
    unfold generateBingoCards
    rw [hc] at *
    rw [if_pos h]

/-- Witness for claim C2 at a pool of 3 words and grid size 2. -/
theorem insufficientWords_error_witness :
    (["a", "b", "c"].length < 2 * 2) ∧
    generateSingleCard (fun _ => 0) ["a", "b", "c"] 2 "card-1" =
      Except.error "Not enough unique words. Need 4, have 3" ∧
    generateBingoCards (fun _ _ => 0) ["a", "b", "c"] { gridSize := 2, numCards := 5, allowRepetition := true } =
      Except.error "Not enough unique words. Need at least 4, have 3" := by
  refine ⟨by decide, ?_, ?_⟩
  · exact (insufficientWords_error (fun _ => 0) (fun _ _ => 0) ["a", "b", "c"] 2 "card-1" (by decide)).1
  · exact (insufficientWords_error (fun _ => 0) (fun _ _ => 0) ["a", "b", "c"] 2 "card-1" (by decide)).2
      { gridSize := 2, numCards := 5, allowRepetition := true } rfl


theorem cons_set_perm (t : List α) : ∀ (m : Nat) (a : α) (hm : m < t.length),
    List.Perm (t.get ⟨m, hm⟩ :: t.set m a) (a :: t) := by
  induction t with
  | nil => intro m a hm; exact absurd hm (by simp)
  | cons b s ih =>
    intro m a hm
    match m with
    | 0 =>
      show List.Perm (b :: a :: s) (a :: b :: s)
      exact List.Perm.swap a b s
    | Nat.succ k =>
      show List.Perm (s.get ⟨k, _⟩ :: b :: s.set k a) (a :: b :: s)
      have h1 : List.Perm (s.get ⟨k, Nat.lt_of_succ_lt_succ hm⟩ :: b :: s.set k a)
          (b :: s.get ⟨k, Nat.lt_of_succ_lt_succ hm⟩ :: s.set k a) :=
        List.Perm.swap b _ (s.set k a)
      have h2 : List.Perm (b :: s.get ⟨k, Nat.lt_of_succ_lt_succ hm⟩ :: s.set k a)
          (b :: a :: s) :=
        List.Perm.cons b (ih k a (Nat.lt_of_succ_lt_succ hm))
      exact (h1.trans h2).trans (List.Perm.swap a b s)

theorem swap_set_perm (l : List α) : ∀ (i j : Nat) (hi : i < l.length) (hj : j < l.length),
    List.Perm ((l.set i (l.get ⟨j, hj⟩)).set j (l.get ⟨i, hi⟩)) l := by
  induction l with
  | nil => intro i j hi _; exact absurd hi (by simp)
  | cons a t ih =>
    intro i j hi hj
    match i, j with
    | 0, 0 =>
      show List.Perm (a :: t) (a :: t)
      exact List.Perm.refl _
    | 0, Nat.succ m =>
      show List.Perm (t.get ⟨m, _⟩ :: t.set m a) (a :: t)
      exact cons_set_perm t m a (Nat.lt_of_succ_lt_succ hj)
    | Nat.succ k, 0 =>
      show List.Perm (t.get ⟨k, _⟩ :: t.set k a) (a :: t)
      exact cons_set_perm t k a (Nat.lt_of_succ_lt_succ hi)
    | Nat.succ k, Nat.succ m =>
      show List.Perm (a :: (t.set k (t.get ⟨m, _⟩)).set m (t.get ⟨k, _⟩)) (a :: t)
      exact List.Perm.cons a (ih k m (Nat.lt_of_succ_lt_succ hi) (Nat.lt_of_succ_lt_succ hj))

theorem listSwap_perm (l : List α) (i j : Nat) (hi : i < l.length) (hj : j < l.length) :
    List.Perm (listSwap l i j) l := by
  unfold listSwap
  rw [List.get?_eq_get hi, List.get?_eq_get hj]
  exact swap_set_perm l i j hi hj

theorem fisherYatesAux_perm (g : Nat → Nat) :
    ∀ (i : Nat) (l : List α), i < l.length → List.Perm (fisherYatesAux g i l) l := by
  intro i
  induction i with
  | zero => intro l _; exact List.Perm.refl l
  | succ n ih =>
    intro l h
    have hj : g (n + 1) % (n + 2) < l.length := by
      have := @Nat.mod_lt (g (n + 1)) (n + 2) (by omega)
      omega
    have hswap := listSwap_perm l (n + 1) (g (n + 1) % (n + 2)) h hj
    have hlen : (listSwap l (n + 1) (g (n + 1) % (n + 2))).length = l.length :=
      hswap.length_eq
    have hn : n < (listSwap l (n + 1) (g (n + 1) % (n + 2))).length := by omega
    exact (ih _ hn).trans hswap

theorem shuffleArray_perm (g : Nat → Nat) (l : List α) :
    List.Perm (shuffleArray g l) l := by
  cases l with
  | nil => exact List.Perm.refl _
  | cons x xs =>
    exact fisherYatesAux_perm g ((x :: xs).length - 1) (x :: xs) (by simp)


/-- Claim C1: for every pool of pairwise case-insensitively distinct words
with at least `gridSize * gridSize` entries, `generateSingleCard` returns a
card with exactly `gridSize * gridSize` words, pairwise case-insensitively
distinct, all drawn from the pool. -/
theorem generateSingleCard_spec (g : Nat → Nat) (P : List String) (gridSize : Nat)
    (cardId : String) (hnodup : (P.map lowerStr).Nodup)
    (hlen : gridSize * gridSize ≤ P.length) :
    ∃ card : BingoCard,
      generateSingleCard g P gridSize cardId = Except.ok card ∧
      card.words.length = gridSize * gridSize ∧
      (card.words.map lowerStr).Nodup ∧
      ∀ w ∈ card.words, w ∈ P := by
  refine ⟨{ id := cardId, words := (shuffleArray g P).take (gridSize * gridSize),
            gridSize := gridSize }, ?_, ?_, ?_, ?_⟩
  · unfold generateSingleCard
    rw [if_neg (by omega)]
  · have := (shuffleArray_perm g P).length_eq
    rw [List.length_take]
    omega
  · have hperm : List.Perm ((shuffleArray g P).map lowerStr) (P.map lowerStr) :=
      (shuffleArray_perm g P).map lowerStr
    have hnd : ((shuffleArray g P).map lowerStr).Nodup := hperm.nodup_iff.mpr hnodup
    have hsub : List.Sublist (((shuffleArray g P).take (gridSize * gridSize)).map lowerStr)
        ((shuffleArray g P).map lowerStr) := by
      rw [List.map_take]
      exact List.take_sublist _ _
    exact hnd.sublist hsub
  · intro w hw
    have hw2 : w ∈ shuffleArray g P := List.mem_of_mem_take hw
    exact (shuffleArray_perm g P).mem_iff.mp hw2

/-- Witness for claim C1 at a 4-word pool and grid size 2. -/
theorem generateSingleCard_spec_witness :
    ((["ax", "by", "cz", "dw"].map lowerStr).Nodup) ∧ (2 * 2 ≤ (["ax", "by", "cz", "dw"] : List String).length) ∧
    ∃ card : BingoCard,
      generateSingleCard (fun _ => 0) ["ax", "by", "cz", "dw"] 2 "card-1" = Except.ok card ∧
      card.words.length = 2 * 2 ∧
      (card.words.map lowerStr).Nodup ∧
      ∀ w ∈ card.words, w ∈ (["ax", "by", "cz", "dw"] : List String) :=
  ⟨by decide, by decide,
    generateSingleCard_spec (fun _ => 0) ["ax", "by", "cz", "dw"] 2 "card-1" (by decide) (by decide)⟩


theorem generateCardsLoop_flag (g : Nat → Nat → Nat) (words : List String)
    (gs n : Nat) : ∀ k : Nat,
    generateCardsLoop g words { gridSize := gs, numCards := n, allowRepetition := true } k =
    generateCardsLoop g words { gridSize := gs, numCards := n, allowRepetition := false } k := by
  intro k
  induction k with
  | zero => rfl
  | succ m ih =>
    show (match generateSingleCard (g (n - (m + 1))) words gs ("card-" ++ toString (n - (m + 1) + 1)) with
      | Except.error e => Except.error e
      | Except.ok card =>
        match generateCardsLoop g words { gridSize := gs, numCards := n, allowRepetition := true } m with
        | Except.error e => Except.error e
        | Except.ok rest => Except.ok (card :: rest)) =
      (match generateSingleCard (g (n - (m + 1))) words gs ("card-" ++ toString (n - (m + 1) + 1)) with
      | Except.error e => Except.error e
      | Except.ok card =>
        match generateCardsLoop g words { gridSize := gs, numCards := n, allowRepetition := false } m with
        | Except.error e => Except.error e
        | Except.ok rest => Except.ok (card :: rest))
    rw [ih]

theorem generateCardsLoop_ok (g : Nat → Nat → Nat) (words : List String)
    (gs n : Nat) (rep : Bool) (h : gs * gs ≤ words.length) : ∀ k : Nat, k ≤ n →
    generateCardsLoop g words { gridSize := gs, numCards := n, allowRepetition := rep } k =
      Except.ok ((List.range' (n - k) k).map fun i =>
        { id := "card-" ++ toString (i + 1),
          words := (shuffleArray (g i) words).take (gs * gs),
          gridSize := gs }) := by
  intro k
  induction k with
  | zero => intro _; rfl
  | succ m ih =>
    intro hk
    have hsingle : generateSingleCard (g (n - (m + 1))) words gs
        ("card-" ++ toString (n - (m + 1) + 1)) =
        Except.ok ⟨"card-" ++ toString (n - (m + 1) + 1),
          (shuffleArray (g (n - (m + 1))) words).take (gs * gs), gs⟩ := by
      unfold generateSingleCard
      rw [if_neg (by omega)]
    show (match
        (if rep = true then
          generateSingleCard (g (n - (m + 1))) words gs ("card-" ++ toString (n - (m + 1) + 1))
         else
          generateSingleCard (g (n - (m + 1))) words gs ("card-" ++ toString (n - (m + 1) + 1))) with
      | Except.error e => Except.error e
      | Except.ok card =>
        match generateCardsLoop g words { gridSize := gs, numCards := n, allowRepetition := rep } m with
        | Except.error e => Except.error e
        | Except.ok rest => Except.ok (card :: rest)) = _
    rw [ite_self, hsingle, ih (by omega)]
    have hrange : List.range' (n - (m + 1)) (m + 1) =
        (n - (m + 1)) :: List.range' (n - m) m := by
      have heq : n - (m + 1) + 1 = n - m := by omega
      rw [List.range'_succ, heq]
    rw [hrange]
    rfl

/-- Claim C4: with the same underlying random source, `generateBingoCards`
returns the same batch whether `allowRepetition` is true or false, and each
of the `numCards` cards is independently a take of a fresh shuffle of the
full pool. -/
theorem allowRepetition_noninterference (g : Nat → Nat → Nat) (words : List String)
    (gs n : Nat) :
    (generateBingoCards g words { gridSize := gs, numCards := n, allowRepetition := true } =
      generateBingoCards g words { gridSize := gs, numCards := n, allowRepetition := false }) ∧
    (∀ rep : Bool, gs * gs ≤ words.length →
      generateBingoCards g words { gridSize := gs, numCards := n, allowRepetition := rep } =
        Except.ok ((List.range n).map fun i =>
          { id := "card-" ++ toString (i + 1),
            words := (shuffleArray (g i) words).take (gs * gs),
            gridSize := gs })) := by
  constructor
  · unfold generateBingoCards
    by_cases h : words.length < gs * gs
    · rw [if_pos h, if_pos h]
    · rw [if_neg h, if_neg h]
      exact generateCardsLoop_flag g words gs n n
  · intro rep h
    unfold generateBingoCards
    rw [if_neg (show ¬(words.length < gs * gs) by omega)]
    rw [generateCardsLoop_ok g words gs n rep h n (le_refl n)]
    rw [Nat.sub_self, List.range_eq_range']

/-- Witness for claim C4 at a 4-word pool, grid size 2 and 2 cards. -/
theorem allowRepetition_noninterference_witness :
    (2 * 2 ≤ (["ax", "by", "cz", "dw"] : List String).length) ∧
    generateBingoCards (fun _ _ => 0) ["ax", "by", "cz", "dw"]
        { gridSize := 2, numCards := 2, allowRepetition := true } =
      Except.ok ((List.range 2).map fun i =>
        { id := "card-" ++ toString (i + 1),
          words := (shuffleArray ((fun _ _ => 0 : Nat → Nat → Nat) i) ["ax", "by", "cz", "dw"]).take (2 * 2),
          gridSize := 2 }) :=
  ⟨by decide,
    (allowRepetition_noninterference (fun _ _ => 0) ["ax", "by", "cz", "dw"] 2 2).2 true (by decide)⟩


theorem exportLoop_grid_get (cards : List Canvas) : ∀ (i curPage k : Nat),
    curPage = (i - 1) / 4 → k < cards.length →
    (exportLoop PdfLayout.multiplePerPage cards i curPage).1.get? k =
      some { page := (i + k) / 4,
             x := 10 + (((i + k) % 4 % 2 : Nat) : ℚ) * ((pageWidth - 20) / 2 + 5),
             y := 10 + (((i + k) % 4 / 2 : Nat) : ℚ) * ((pageHeight - 20) / 2 + 5),
             width := (pageWidth - 20) / 2,
             height := (pageHeight - 20) / 2 } := by
  induction cards with
  | nil => intro i curPage k _ hk; exact absurd hk (by simp)
  | cons c rest ih =>
    intro i curPage k hcur hk
    have hpage : (if i % 4 = 0 ∧ 0 < i then curPage + 1 else curPage) = i / 4 := by
      by_cases hc : i % 4 = 0 ∧ 0 < i
      · rw [if_pos hc]; omega
      · rw [if_neg hc]; omega
    match k with
    | 0 =>
      show some _ = some _
      rw [hpage]
      norm_num
    | Nat.succ m =>
      show (exportLoop PdfLayout.multiplePerPage rest (i + 1)
          (if i % 4 = 0 ∧ 0 < i then curPage + 1 else curPage)).1.get? m = _
      rw [hpage]
      have := ih (i + 1) (i / 4) m (by omega) (by simpa using hk)
      rw [this]
      have harith : i + 1 + m = i + (m + 1) := by omega
      rw [harith]

theorem exportLoop_grid_snd (cards : List Canvas) : ∀ (i curPage : Nat),
    curPage = (i - 1) / 4 →
    (exportLoop PdfLayout.multiplePerPage cards i curPage).2 =
      (i + cards.length - 1) / 4 := by
  induction cards with
  | nil => intro i curPage hcur; simpa [exportLoop] using hcur
  | cons c rest ih =>
    intro i curPage hcur
    have hpage : (if i % 4 = 0 ∧ 0 < i then curPage + 1 else curPage) = i / 4 := by
      by_cases hc : i % 4 = 0 ∧ 0 < i
      · rw [if_pos hc]; omega
      · rw [if_neg hc]; omega
    show (exportLoop PdfLayout.multiplePerPage rest (i + 1)
        (if i % 4 = 0 ∧ 0 < i then curPage + 1 else curPage)).2 = _
    rw [hpage, ih (i + 1) (i / 4) (by omega)]
    have : i + 1 + rest.length - 1 = i + (rest.length + 1) - 1 := by omega
    rw [this]
    rfl

/-- Claim C7: with the multiple-per-page (2 x 2 grid) layout, card `k` is
placed on page `k / 4` at row-major cell position `k % 4`, and `N >= 1` cards
produce a document of `ceil(N / 4)` pages. -/
theorem exportCardsToPDF_grid_spec (cards : List Canvas) (hN : 0 < cards.length) :
    (∀ k : Nat, k < cards.length →
      (exportCardsToPDF cards PdfLayout.multiplePerPage).1.get? k =
        some { page := k / 4,
               x := 10 + ((k % 4 % 2 : Nat) : ℚ) * ((pageWidth - 20) / 2 + 5),
               y := 10 + ((k % 4 / 2 : Nat) : ℚ) * ((pageHeight - 20) / 2 + 5),
               width := (pageWidth - 20) / 2,
               height := (pageHeight - 20) / 2 }) ∧
    (exportCardsToPDF cards PdfLayout.multiplePerPage).2 = (cards.length + 3) / 4 := by
  constructor
  · intro k hk
    have := exportLoop_grid_get cards 0 0 k (by omega) hk
    simpa [exportCardsToPDF] using this
  · show (exportLoop PdfLayout.multiplePerPage cards 0 0).2 + 1 = (cards.length + 3) / 4
    rw [exportLoop_grid_snd cards 0 0 (by omega)]
    omega

/-- Witness for claim C7 at 5 rendered cards: the fifth card sits alone on
the second page of a 2-page document. -/
theorem exportCardsToPDF_grid_spec_witness :
    (0 < (List.replicate 5 ({ width := 100, height := 150 } : Canvas)).length) ∧
    (exportCardsToPDF (List.replicate 5 ({ width := 100, height := 150 } : Canvas))
        PdfLayout.multiplePerPage).1.get? 4 =
      some { page := 4 / 4,
             x := 10 + ((4 % 4 % 2 : Nat) : ℚ) * ((pageWidth - 20) / 2 + 5),
             y := 10 + ((4 % 4 / 2 : Nat) : ℚ) * ((pageHeight - 20) / 2 + 5),
             width := (pageWidth - 20) / 2,
             height := (pageHeight - 20) / 2 } ∧
    (exportCardsToPDF (List.replicate 5 ({ width := 100, height := 150 } : Canvas))
        PdfLayout.multiplePerPage).2 = (5 + 3) / 4 :=
  ⟨by decide,
    (exportCardsToPDF_grid_spec (List.replicate 5 { width := 100, height := 150 }) (by decide)).1
      4 (by decide),
    (exportCardsToPDF_grid_spec (List.replicate 5 { width := 100, height := 150 }) (by decide)).2⟩


theorem convertSize_px_mm (q : ℚ) :
    convertSize q SizeUnit.px SizeUnit.mm = ((jsRound (q / (96 / 25.4)) : ℤ) : ℚ) := rfl

theorem convertSize_mm_px (q : ℚ) :
    convertSize q SizeUnit.mm SizeUnit.px = ((jsRound (q * (96 / 25.4)) : ℤ) : ℚ) := rfl

/-- Counterexample for claim C6: at `v = 240` the px -> mm -> px round trip
returns 242, which differs from `v` by 2, not at most 1. -/
theorem convertSize_roundtrip_cex :
    ¬ |convertSize (convertSize 240 SizeUnit.px SizeUnit.mm) SizeUnit.mm SizeUnit.px - 240| ≤ 1 := by
  have h1 : convertSize 240 SizeUnit.px SizeUnit.mm = 64 := by
    rw [convertSize_px_mm]
    unfold jsRound
    norm_num
  rw [h1, convertSize_mm_px]
  unfold jsRound
  norm_num

/-- Claim C6 (amended): the px -> mm -> px round trip differs from the
original integer value by at most 2. -/
theorem convertSize_roundtrip_bound (v : ℤ) :
    |convertSize (convertSize (v : ℚ) SizeUnit.px SizeUnit.mm) SizeUnit.mm SizeUnit.px - (v : ℚ)| ≤ 2 := by
  rw [convertSize_px_mm, convertSize_mm_px]
  have hc : (96 / 25.4 : ℚ) = 480 / 127 := by norm_num
  rw [hc]
  set r1 : ℤ := jsRound ((v : ℚ) / (480 / 127)) with hr1
  set r2 : ℤ := jsRound ((r1 : ℚ) * (480 / 127)) with hr2
  have h1a : (r1 : ℚ) ≤ (v : ℚ) / (480 / 127) + 1 / 2 := by
    rw [hr1]; unfold jsRound; exact Int.floor_le _
  have h1b : (v : ℚ) / (480 / 127) + 1 / 2 < (r1 : ℚ) + 1 := by
    rw [hr1]; unfold jsRound; exact Int.lt_floor_add_one _
  have h2a : (r2 : ℚ) ≤ (r1 : ℚ) * (480 / 127) + 1 / 2 := by
    rw [hr2]; unfold jsRound; exact Int.floor_le _
  have h2b : (r1 : ℚ) * (480 / 127) + 1 / 2 < (r2 : ℚ) + 1 := by
    rw [hr2]; unfold jsRound; exact Int.lt_floor_add_one _
  have hq1 : (r2 : ℚ) - (v : ℚ) < 3 := by linarith
  have hq2 : -3 < (r2 : ℚ) - (v : ℚ) := by linarith
  have hz1 : r2 - v < 3 := by exact_mod_cast hq1
  have hz2 : -3 < r2 - v := by exact_mod_cast hq2
  have hz : |r2 - v| ≤ 2 := by
    rw [abs_le]
    omega
  exact_mod_cast hz


theorem trimChars_eq_rdrop (l : List Char) :
    trimChars l = List.rdropWhile Char.isWhitespace (l.dropWhile Char.isWhitespace) := rfl

theorem trimChars_subset (l : List Char) : ∀ c ∈ trimChars l, c ∈ l := by
  intro c hc
  rw [trimChars_eq_rdrop] at hc
  have h1 := ( List.rdropWhile_prefix Char.isWhitespace (l.dropWhile Char.isWhitespace)).subset hc
  exact (List.dropWhile_suffix Char.isWhitespace).subset h1

theorem trimChars_idem (l : List Char) : trimChars (trimChars l) = trimChars l := by
  rw [trimChars_eq_rdrop, trimChars_eq_rdrop]
  have hself : (List.rdropWhile Char.isWhitespace (l.dropWhile Char.isWhitespace)).dropWhile
      Char.isWhitespace = List.rdropWhile Char.isWhitespace (l.dropWhile Char.isWhitespace) := by
    rw [List.dropWhile_eq_self_iff]
    intro hl
    obtain ⟨t, ht⟩ := List.rdropWhile_prefix Char.isWhitespace (l.dropWhile Char.isWhitespace)
    have hAl : 0 < (l.dropWhile Char.isWhitespace).length := by
      rw [← ht, List.length_append]
      omega
    have hA0 := List.dropWhile_get_zero_not Char.isWhitespace l hAl
    have hq : (l.dropWhile Char.isWhitespace).get? 0 =
        (List.rdropWhile Char.isWhitespace (l.dropWhile Char.isWhitespace)).get? 0 := by
      conv_lhs => rw [← ht]
      exact List.get?_append hl
    rw [List.get?_eq_get hAl, List.get?_eq_get hl] at hq
    have hget := Option.some.inj hq
    rwa [hget] at hA0
  rw [hself, List.rdropWhile_idempotent]


theorem splitRuns_nil : splitRuns [] = [[]] := rfl

theorem splitRuns_sep_nil (c : Char) (hc : isSeparator c = true) :
    splitRuns [c] = [[], []] := by
  show (if isSeparator c = true then [] :: splitRuns ([] : List Char)
    else match splitRuns ([] : List Char) with
      | [] => [[c]]
      | f :: rs => (c :: f) :: rs) = [[], []]
  rw [if_pos hc, splitRuns_nil]

theorem splitRuns_sep_sep (c d : Char) (ds : List Char) (hc : isSeparator c = true)
    (hd : isSeparator d = true) :
    splitRuns (c :: d :: ds) = splitRuns (d :: ds) := by
  show (if isSeparator c = true then
      (if isSeparator d = true then splitRuns (d :: ds) else [] :: splitRuns (d :: ds))
    else match splitRuns (d :: ds) with
      | [] => [[c]]
      | f :: rs => (c :: f) :: rs) = splitRuns (d :: ds)
  rw [if_pos hc, if_pos hd]

theorem splitRuns_sep_notsep (c d : Char) (ds : List Char) (hc : isSeparator c = true)
    (hd : isSeparator d = false) :
    splitRuns (c :: d :: ds) = [] :: splitRuns (d :: ds) := by
  show (if isSeparator c = true then
      (if isSeparator d = true then splitRuns (d :: ds) else [] :: splitRuns (d :: ds))
    else match splitRuns (d :: ds) with
      | [] => [[c]]
      | f :: rs => (c :: f) :: rs) = [] :: splitRuns (d :: ds)
  rw [if_pos hc, if_neg (by rw [hd]; simp)]

theorem splitRuns_notsep (c : Char) (cs f : List Char) (rs : List (List Char))
    (hc : isSeparator c = false) (h : splitRuns cs = f :: rs) :
    splitRuns (c :: cs) = (c :: f) :: rs := by
  have hcne : ¬ isSeparator c = true := by rw [hc]; simp
  simp only [splitRuns]
  rw [if_neg hcne, h]

theorem splitRuns_ne_nil : ∀ (s : List Char), splitRuns s ≠ [] := by
  intro s
  induction s with
  | nil => simp [splitRuns_nil]
  | cons c cs ih =>
    by_cases hc : isSeparator c = true
    · match cs with
      | [] => rw [splitRuns_sep_nil c hc]; simp
      | d :: ds =>
        by_cases hd : isSeparator d = true
        · rw [splitRuns_sep_sep c d ds hc hd]; exact ih
        · rw [splitRuns_sep_notsep c d ds hc (by simpa using hd)]; simp
    · match h : splitRuns cs with
      | [] => exact absurd h ih
      | f :: rs =>
        rw [splitRuns_notsep c cs f rs (by simpa using hc) h]
        simp

theorem splitRuns_sepFree : ∀ (s : List Char), ∀ f ∈ splitRuns s, ∀ c ∈ f, isSeparator c = false := by
  intro s
  induction s with
  | nil =>
    intro f hf c hc
    rw [splitRuns_nil] at hf
    simp at hf
    subst hf
    simp at hc
  | cons a cs ih =>
    intro f hf c hc
    by_cases ha : isSeparator a = true
    · match cs with
      | [] =>
        rw [splitRuns_sep_nil a ha] at hf
        simp at hf
        subst hf
        simp at hc
      | d :: ds =>
        by_cases hd : isSeparator d = true
        · rw [splitRuns_sep_sep a d ds ha hd] at hf
          exact ih f hf c hc
        · rw [splitRuns_sep_notsep a d ds ha (by simpa using hd)] at hf
          rcases List.mem_cons.mp hf with hf | hf
          · subst hf; simp at hc
          · exact ih f hf c hc
    · match h : splitRuns cs with
      | [] => exact absurd h (splitRuns_ne_nil cs)
      | f0 :: rs =>
        rw [splitRuns_notsep a cs f0 rs (by simpa using ha) h] at hf
        rcases List.mem_cons.mp hf with hf | hf
        · subst hf
          rcases List.mem_cons.mp hc with hc | hc
          · subst hc; simpa using ha
          · exact ih f0 (by rw [h]; exact List.mem_cons_self f0 rs) c hc
        · exact ih f (by rw [h]; exact List.mem_cons_of_mem f0 hf) c hc

theorem splitRuns_word (w : List Char) (hw : ∀ c ∈ w, isSeparator c = false) :
    splitRuns w = [w] := by
  induction w with
  | nil => rfl
  | cons c cs ih =>
    have hcs : splitRuns cs = [cs] :=
      ih (fun d hd => hw d (List.mem_cons_of_mem c hd))
    exact splitRuns_notsep c cs cs [] (hw c (List.mem_cons_self c cs)) hcs

theorem splitRuns_word_append (w : List Char) (hw : ∀ c ∈ w, isSeparator c = false)
    (d : Char) (hd : isSeparator d = false) (r : List Char) :
    splitRuns (w ++ ',' :: d :: r) = w :: splitRuns (d :: r) := by
  induction w with
  | nil =>
    show splitRuns (',' :: d :: r) = [] :: splitRuns (d :: r)
    exact splitRuns_sep_notsep ',' d r (by simp [isSeparator]) hd
  | cons c w2 ih =>
    have ih2 := ih (fun e he => hw e (List.mem_cons_of_mem c he))
    have : splitRuns (w2 ++ ',' :: d :: r) = w2 :: splitRuns (d :: r) := ih2
    show splitRuns (c :: (w2 ++ ',' :: d :: r)) = (c :: w2) :: splitRuns (d :: r)
    exact splitRuns_notsep c _ w2 (splitRuns (d :: r))
      (hw c (List.mem_cons_self c w2)) this


theorem dedupWords_subset : ∀ (ws seen : List (List Char)),
    ∀ v ∈ dedupWords seen ws, v ∈ ws := by
  intro ws
  induction ws with
  | nil => intro seen v hv; simpa [dedupWords] using hv
  | cons w ws2 ih =>
    intro seen v hv
    by_cases h : lowerChars w ∈ seen
    · rw [show dedupWords seen (w :: ws2) = dedupWords seen ws2 by
        simp only [dedupWords]; rw [if_pos h]] at hv
      exact List.mem_cons_of_mem w (ih seen v hv)
    · rw [show dedupWords seen (w :: ws2) = w :: dedupWords (lowerChars w :: seen) ws2 by
        simp only [dedupWords]; rw [if_neg h]] at hv
      rcases List.mem_cons.mp hv with hv | hv
      · exact hv ▸ List.mem_cons_self w ws2
      · exact List.mem_cons_of_mem w (ih _ v hv)

theorem dedupWords_nodup : ∀ (ws seen : List (List Char)),
    ((dedupWords seen ws).map lowerChars).Nodup ∧
    ∀ x ∈ (dedupWords seen ws).map lowerChars, x ∉ seen := by
  intro ws
  induction ws with
  | nil => intro seen; simp [dedupWords]
  | cons w ws2 ih =>
    intro seen
    by_cases h : lowerChars w ∈ seen
    · rw [show dedupWords seen (w :: ws2) = dedupWords seen ws2 by
        simp only [dedupWords]; rw [if_pos h]]
      exact ih seen
    · rw [show dedupWords seen (w :: ws2) = w :: dedupWords (lowerChars w :: seen) ws2 by
        simp only [dedupWords]; rw [if_neg h]]
      obtain ⟨ihn, ihs⟩ := ih (lowerChars w :: seen)
      constructor
      · rw [List.map_cons, List.nodup_cons]
        constructor
        · intro hmem
          exact (ihs (lowerChars w) hmem) (List.mem_cons_self _ _)
        · exact ihn
      · intro x hx
        rw [List.map_cons] at hx
        rcases List.mem_cons.mp hx with hx | hx
        · exact hx ▸ h
        · intro hxs
          exact (ihs x hx) (List.mem_cons_of_mem _ hxs)

theorem dedupWords_eq_self : ∀ (ws seen : List (List Char)),
    (ws.map lowerChars).Nodup → (∀ w ∈ ws, lowerChars w ∉ seen) →
    dedupWords seen ws = ws := by
  intro ws
  induction ws with
  | nil => intro seen _ _; rfl
  | cons w ws2 ih =>
    intro seen hnd hfresh
    have hw : lowerChars w ∉ seen := hfresh w (List.mem_cons_self w ws2)
    rw [show dedupWords seen (w :: ws2) = w :: dedupWords (lowerChars w :: seen) ws2 by
      simp only [dedupWords]; rw [if_neg hw]]
    rw [List.map_cons, List.nodup_cons] at hnd
    congr 1
    apply ih (lowerChars w :: seen) hnd.2
    intro v hv
    intro hmem
    rcases List.mem_cons.mp hmem with hmem | hmem
    · exact hnd.1 (hmem ▸ List.mem_map_of_mem lowerChars hv)
    · exact (hfresh v (List.mem_cons_of_mem w hv)) hmem

theorem map_eq_self_of (l : List α) (f : α → α) (h : ∀ a ∈ l, f a = a) : l.map f = l := by
  induction l with
  | nil => rfl
  | cons a t ih =>
    rw [List.map_cons, h a (List.mem_cons_self a t),
      ih (fun b hb => h b (List.mem_cons_of_mem a hb))]

theorem splitRuns_joinComma : ∀ (ws : List (List Char)),
    (∀ w ∈ ws, w ≠ [] ∧ ∀ c ∈ w, isSeparator c = false) → ws ≠ [] →
    splitRuns (joinComma ws) = ws := by
  intro ws
  induction ws with
  | nil => intro _ h; exact absurd rfl h
  | cons w ws2 ih =>
    intro hws _
    match ws2 with
    | [] =>
      show splitRuns w = [w]
      exact splitRuns_word w (hws w (List.mem_cons_self w [])).2
    | v :: rest =>
      obtain ⟨hvne, hvsep⟩ := hws v (List.mem_cons_of_mem w (List.mem_cons_self v rest))
      match v, hvne with
      | d :: v2, _ =>
        have hjoin : joinComma ((d :: v2) :: rest) = d :: (match rest with
          | [] => v2
          | _ :: _ => v2 ++ ',' :: joinComma rest) := by
          match rest with
          | [] => rfl
          | r0 :: rs => rfl
        have hd : isSeparator d = false := hvsep d (List.mem_cons_self d v2)
        show splitRuns (w ++ ',' :: joinComma ((d :: v2) :: rest)) = w :: (d :: v2) :: rest
        rw [hjoin]
        rw [splitRuns_word_append w (hws w (List.mem_cons_self w _)).2 d hd _]
        rw [← hjoin]
        rw [ih (fun u hu => hws u (List.mem_cons_of_mem w hu)) (by simp)]


theorem processWords_facts (x : List Char) :
    (∀ w ∈ processWords x, 0 < w.length ∧ trimChars w = w ∧
      ∀ c ∈ w, isSeparator c = false) ∧
    ((processWords x).map lowerChars).Nodup := by
  by_cases hx : x = []
  · subst hx
    simp [processWords]
  · have hpw : processWords x = dedupWords []
        (((splitRuns x).map trimChars).filter (fun w => decide (0 < w.length))) := by
      simp only [processWords]
      rw [if_neg hx]
    constructor
    · intro w hw
      rw [hpw] at hw
      have hw2 := dedupWords_subset _ [] w hw
      have hw3 := List.mem_filter.mp hw2
      have hlen : 0 < w.length := by
        have := hw3.2
        simpa using this
      have hw4 := hw3.1
      obtain ⟨f, hf, hfw⟩ := List.mem_map.mp hw4
      refine ⟨hlen, ?_, ?_⟩
      · rw [← hfw, trimChars_idem]
      · intro c hc
        have hcf : c ∈ f := by
          apply trimChars_subset f
          rw [hfw]
          exact hc
        exact splitRuns_sepFree x f hf c hcf
    · rw [hpw]
      exact (dedupWords_nodup _ []).1

/-- Claim C9: `processWords` is idempotent: re-joining its output with commas
and processing again yields the same word list. -/
theorem processWords_idempotent (x : List Char) :
    processWords (joinComma (processWords x)) = processWords x := by
  obtain ⟨hfacts, hnodup⟩ := processWords_facts x
  cases hws : processWords x with
  | nil =>
    rw [hws] at hfacts hnodup
    rfl
  | cons w rest =>
    rw [hws] at hfacts hnodup
    have hwne : ∀ v ∈ w :: rest, v ≠ [] ∧ ∀ c ∈ v, isSeparator c = false := by
      intro v hv
      obtain ⟨hlen, _, hsep⟩ := hfacts v hv
      exact ⟨by intro he; rw [he] at hlen; simp at hlen, hsep⟩
    have hne : joinComma (w :: rest) ≠ [] := by
      obtain ⟨hwne0, _⟩ := hwne w (List.mem_cons_self w rest)
      match rest with
      | [] => exact hwne0
      | v :: rs =>
        show w ++ ',' :: joinComma (v :: rs) ≠ []
        simp
    show processWords (joinComma (w :: rest)) = w :: rest
    have hsplit : splitRuns (joinComma (w :: rest)) = w :: rest :=
      splitRuns_joinComma (w :: rest) hwne (by simp)
    simp only [processWords]
    rw [if_neg hne, hsplit]
    rw [map_eq_self_of (w :: rest) trimChars (fun v hv => (hfacts v hv).2.1)]
    rw [List.filter_eq_self.mpr (fun v hv => by
      have := (hfacts v hv).1
      simpa using this)]
    exact dedupWords_eq_self (w :: rest) [] hnodup (fun v _ => List.not_mem_nil _)

end Bingo
